import Mathlib

set_option maxRecDepth 8000

/-!
Verification of the CMap subsystem of pdfminer (janbox fork), embedded from
`pdfminer/cmapdb.py`.  Python dictionaries are modelled as association lists
(first binding wins on lookup, update replaces in place or appends), Python
integers as `Int`, byte strings as `List Nat`, and fallible Python code
(`struct.error`, `TypeError`, `KeyError`, `ValueError`, `IndexError`) as
`Except String`.  Logging is omitted; it never affects the data flow.
-/

/-! ### Unicode block table (`unicode_charset_map`, cmapdb.py lines 39-186)

Each source entry is a `(low, high, label)` triple.  The label string is used
only inside log messages, never in any comparison, so it is omitted here; the
entries below are the exact `(low, high)` bounds of the source table, in
source order (including the ill-formed `(0x07C0, 0x077F)` entry whose low
bound exceeds its high bound). -/

def unicode_charset_map : List (Int × Int) := [
  (0x0000, 0x007F), (0x0080, 0x00FF), (0x0100, 0x017F), (0x0180, 0x024F),
  (0x0250, 0x02AF), (0x02B0, 0x02FF), (0x0300, 0x036F), (0x0370, 0x03FF),
  (0x0400, 0x04FF), (0x0500, 0x052F), (0x0530, 0x058F), (0x0590, 0x05FF),
  (0x0600, 0x06FF), (0x0700, 0x074F), (0x0750, 0x077F), (0x0780, 0x07BF),
  (0x07C0, 0x077F), (0x0800, 0x085F), (0x0860, 0x087F), (0x0880, 0x08AF),
  (0x0900, 0x097F), (0x0980, 0x09FF), (0x0A00, 0x0A7F), (0x0A80, 0x0AFF),
  (0x0B00, 0x0B7F), (0x0B80, 0x0BFF), (0x0C00, 0x0C7F), (0x0C80, 0x0CFF),
  (0x0D00, 0x0D7F), (0x0D80, 0x0DFF), (0x0E00, 0x0E7F), (0x0E80, 0x0EFF),
  (0x0F00, 0x0FFF), (0x1000, 0x109F), (0x10A0, 0x10FF), (0x1100, 0x11FF),
  (0x1200, 0x137F), (0x1380, 0x139F), (0x13A0, 0x13FF), (0x1400, 0x167F),
  (0x1680, 0x169F), (0x16A0, 0x16FF), (0x1700, 0x171F), (0x1720, 0x173F),
  (0x1740, 0x175F), (0x1760, 0x177F), (0x1780, 0x17FF), (0x1800, 0x18AF),
  (0x18B0, 0x18FF), (0x1900, 0x194F), (0x1950, 0x197F), (0x1980, 0x19DF),
  (0x19E0, 0x19FF), (0x1A00, 0x1A1F), (0x1A20, 0x1A5F), (0x1A80, 0x1AEF),
  (0x1B00, 0x1B7F), (0x1B80, 0x1BB0), (0x1BC0, 0x1BFF), (0x1C00, 0x1C4F),
  (0x1C50, 0x1C7F), (0x1C80, 0x1CDF), (0x1D00, 0x1D7F), (0x1D80, 0x1DBF),
  (0x1DC0, 0x1DFF), (0x1E00, 0x1EFF), (0x1F00, 0x1FFF), (0x2000, 0x206F),
  (0x2070, 0x209F), (0x20A0, 0x20CF), (0x20D0, 0x20FF), (0x2100, 0x214F),
  (0x2150, 0x218F), (0x2190, 0x21FF), (0x2200, 0x22FF), (0x2300, 0x23FF),
  (0x2400, 0x243F), (0x2440, 0x245F), (0x2460, 0x24FF), (0x2500, 0x257F),
  (0x2580, 0x259F), (0x25A0, 0x25FF), (0x2600, 0x26FF), (0x2700, 0x27BF),
  (0x27C0, 0x27EF), (0x27F0, 0x27FF), (0x2800, 0x28FF), (0x2900, 0x297F),
  (0x2980, 0x29FF), (0x2A00, 0x2AFF), (0x2B00, 0x2BFF), (0x2C00, 0x2C5F),
  (0x2C60, 0x2C7F), (0x2C80, 0x2CFF), (0x2D00, 0x2D2F), (0x2D30, 0x2D7F),
  (0x2D80, 0x2DDF), (0x2E00, 0x2E7F), (0x2E80, 0x2EFF), (0x2F00, 0x2FDF),
  (0x2FF0, 0x2FFF), (0x3000, 0x303F), (0x3040, 0x309F), (0x30A0, 0x30FF),
  (0x3100, 0x312F), (0x3130, 0x318F), (0x3190, 0x319F), (0x31A0, 0x31BF),
  (0x31C0, 0x31EF), (0x31F0, 0x31FF), (0x3200, 0x32FF), (0x3300, 0x33FF),
  (0x3400, 0x4DBF), (0x4DC0, 0x4DFF), (0x4E00, 0x9FBF), (0xA000, 0xA48F),
  (0xA490, 0xA4CF), (0xA500, 0xA61F), (0xA660, 0xA6FF), (0xA700, 0xA71F),
  (0xA720, 0xA7FF), (0xA800, 0xA82F), (0xA840, 0xA87F), (0xA880, 0xA8DF),
  (0xA900, 0xA97F), (0xA980, 0xA9DF), (0xAA00, 0xAA3F), (0xAA40, 0xAA6F),
  (0xAA80, 0xAADF), (0xAB00, 0xAB5F), (0xAB80, 0xABA0), (0xAC00, 0xD7AF),
  (0xD800, 0xDBFF), (0xDC00, 0xDFFF), (0xE000, 0xF8FF), (0xF900, 0xFAFF),
  (0xFB00, 0xFB4F), (0xFB50, 0xFDFF), (0xFE00, 0xFE0F), (0xFE10, 0xFE1F),
  (0xFE20, 0xFE2F), (0xFE30, 0xFE4F), (0xFE50, 0xFE6F), (0xFE70, 0xFEFF),
  (0xFF00, 0xFFEF), (0xFFF0, 0xFFFF)]

/-- `get_unicode_charset_entry(code)` (cmapdb.py lines 189-193): scan the
table in order and return the first entry whose interval contains `code`,
`None` otherwise. -/
def get_unicode_charset_entry (code : Int) : Option (Int × Int) :=
  unicode_charset_map.find? (fun item => decide (item.1 ≤ code ∧ code ≤ item.2))

/-- `CMapParser.verify_char_set(s1, e1, base)` (cmapdb.py lines 702-711). -/
def verify_char_set (s1 e1 base : Int) : Option Int :=
  match get_unicode_charset_entry base with
  | some item => if item.2 - base + s1 < e1 then some s1 else some e1
  | none => none

/-! ### The CID-to-Unicode table (`cid2unichr` of `UnicodeMap`)

A Python dict from CID to a unicode string; modelled as an association list
from `Int` to the list of Unicode scalar values of that string. -/

abbrev UTable := List (Int × List Int)

/-- Dict lookup: first binding for the key, if any. -/
def afind : UTable → Int → Option (List Int)
  | [], _ => none
  | (k, v) :: r, c => if k = c then some v else afind r c

/-- Dict update `d[c] = v`: replace the existing binding in place, else
append. -/
def aupd : UTable → Int → List Int → UTable
  | [], c, v => [(c, v)]
  | (k, w) :: r, c, v => if k = c then (c, v) :: r else (k, w) :: aupd r c v

/-- The big-endian 16-bit code units of a byte string; a trailing odd byte
yields no unit. -/
def be_units : List Nat → List Nat
  | hi :: lo :: rest => (256 * hi + lo) :: be_units rest
  | _ => []

/-- Surrogate-pair combination over a code-unit sequence with ill-formed
units dropped (the `'ignore'` error handler). -/
def combine_surrogates : List Nat → List Int
  | [] => []
  | [u] => if 0xD800 ≤ u ∧ u ≤ 0xDFFF then [] else [(u : Int)]
  | u :: u2 :: rest =>
    if 0xD800 ≤ u ∧ u ≤ 0xDBFF then
      if 0xDC00 ≤ u2 ∧ u2 ≤ 0xDFFF then
        ((0x10000 + (u - 0xD800) * 0x400 + (u2 - 0xDC00) : Nat) : Int) :: combine_surrogates rest
      else combine_surrogates (u2 :: rest)
    else if 0xDC00 ≤ u ∧ u ≤ 0xDFFF then combine_surrogates (u2 :: rest)
    else (u : Int) :: combine_surrogates (u2 :: rest)

/-- Python 2 `unicode(bytes, 'UTF-16BE', 'ignore')`: decode byte pairs as
big-endian UTF-16 code units, combining surrogate pairs, with ill-formed
units and a trailing odd byte ignored. -/
def utf16be_decode (bs : List Nat) : List Int :=
  combine_surrogates (be_units bs)

/-- The PostScript objects the CMap interpreter consumes from the external
tokenizer: byte strings, integers and array-like lists.  (PSLiteral glyph
names can also reach `add_cid2unichr` via `endbfchar`; no operation modelled
here feeds one, so that constructor is not needed.) -/
inductive PSObj where
  | pstr : List Nat → PSObj
  | pint : Int → PSObj
  | parr : List PSObj → PSObj

/-- `FileUnicodeMap.add_cid2unichr(cid, code)` (cmapdb.py lines 344-356):
byte strings are decoded as UTF-16BE with errors ignored; integers go
through `unichr`, which raises `ValueError` outside `[0, 0x10FFFF]`; any
other object raises `TypeError`. -/
def add_cid2unichr (t : UTable) (cid : Int) (code : PSObj) : Except String UTable :=
  match code with
  | .pstr bs => .ok (aupd t cid (utf16be_decode bs))
  | .pint n => if 0 ≤ n ∧ n ≤ 0x10FFFF then .ok (aupd t cid [n]) else .error "ValueError"
  | .parr _ => .error "TypeError"

/-- Modelled from the spec: `utils.nunpack` (imported by cmapdb.py but not
under src/) reads a byte string as a big-endian number; the spec's examples
(`<0000>` = 0, `<0002>` = 2) force this reading. -/
def nunpack (bs : List Nat) : Int :=
  bs.foldl (fun a b => 256 * a + (b : Int)) 0

/-- `struct.pack('>L', v)`: the four big-endian bytes of `v`, raising
`struct.error` outside `[0, 2^32)`. -/
def pack_be32 (v : Int) : Except String (List Nat) :=
  if 0 ≤ v ∧ v < 0x100000000 then
    .ok [v.toNat / 0x1000000 % 256, v.toNat / 0x10000 % 256, v.toNat / 0x100 % 256, v.toNat % 256]
  else .error "struct.error"

/-- Python `xs[-4:]`: the last four elements (all of them if fewer). -/
def last4 (bs : List Nat) : List Nat := bs.drop (bs.length - 4)

/-- Python `xs[:-4]`: everything but the last four elements. -/
def drop_last4 (bs : List Nat) : List Nat := bs.take (bs.length - 4)

/-- Python `packed[-vlen:]` for `0 ≤ vlen ≤ 4`: note that `[-0:]` is the
whole string, not the empty one. -/
def suffix_len (packed : List Nat) (vlen : Nat) : List Nat :=
  if vlen = 0 then packed else packed.drop (4 - vlen)

/-- `xrange(n)` as a list of integers (empty when `n ≤ 0`). -/
def int_range (n : Int) : List Int := (List.range n.toNat).map Int.ofNat

/-- A bfrange entry `(cid_start, cid_end, unicode_base, offset)` as appended
to `cmap_bfrange_items` / `drop_bfrange_items` / `bfranges`. -/
structure BfItem where
  s : Int
  e : Int
  base : Int
  off : Int
deriving DecidableEq, Repr

/-- The `FileUnicodeMap` state: the direct CID-to-Unicode table and the
bfrange extrapolation index (cmapdb.py lines 338-342). -/
structure FileUnicodeMap where
  cid2unichr : UTable
  bfranges : List BfItem
deriving DecidableEq, Repr

/-- The `CMapParser` state relevant to bfrange processing: the target
`FileUnicodeMap` plus the two scratch lists (cmapdb.py lines 478-486). -/
structure ParserState where
  cmap : FileUnicodeMap
  cmap_bfrange_items : List BfItem
  drop_bfrange_items : List BfItem
deriving DecidableEq, Repr

def ParserState.init : ParserState := ⟨⟨[], []⟩, [], []⟩

/-- Modelled from the spec: `utils.choplist(3, objs)` (not under src/)
drains the stack in groups of three; an incomplete trailing group yields
nothing. -/
def chop3 : List PSObj → List (PSObj × PSObj × PSObj)
  | a :: b :: c :: r => (a, b, c) :: chop3 r
  | _ => []

/-- Modelled from the spec: `utils.choplist(2, objs)` (not under src/). -/
def chop2 : List PSObj → List (PSObj × PSObj)
  | a :: b :: r => (a, b) :: chop2 r
  | _ => []

/-- One `(s, e, code)` group of the `endbfrange` handler
(cmapdb.py lines 590-612).  Groups failing the type or length check are
skipped.  For a list `code`, each element is assigned in order (indexing
past the end raises).  Otherwise the trailing four bytes of `code` are the
base scalar; `verify_char_set` admits the range (`e2` truthy) or the whole
range is recorded as dropped (`e2` of `None` and of `0` land in the same
`else` branch of `if e2:`). -/
def do_bfrange_group (st : ParserState) : PSObj × PSObj × PSObj → Except String ParserState
  | (.pstr s, .pstr e, code) =>
    if s.length ≠ e.length then .ok st
    else
      let s1 := nunpack s
      let e1 := nunpack e
      match code with
      | .parr elems =>
        ((int_range (e1 - s1 + 1)).foldlM
          (fun (t : UTable) (i : Int) =>
            match elems.get? i.toNat with
            | some c => add_cid2unichr t (s1 + i) c
            | none => .error "IndexError") st.cmap.cid2unichr).map
          (fun t => { st with cmap := { st.cmap with cid2unichr := t } })
      | .pstr cbs =>
        let var := last4 cbs
        let base := nunpack var
        let pre := drop_last4 cbs
        let vlen := var.length
        match verify_char_set s1 e1 base with
        | some e2 =>
          if e2 ≠ 0 then
            ((int_range (e2 - s1 + 1)).foldlM
              (fun (t : UTable) (i : Int) => do
                let packed ← pack_be32 (base + i)
                add_cid2unichr t (s1 + i) (.pstr (pre ++ suffix_len packed vlen)))
              st.cmap.cid2unichr).map
              (fun t =>
                { st with
                  cmap := { st.cmap with cid2unichr := t }
                  cmap_bfrange_items :=
                    st.cmap_bfrange_items ++ [BfItem.mk s1 e2 base (base - s1)] })
          else
            .ok { st with drop_bfrange_items :=
                    st.drop_bfrange_items ++ [⟨s1, e1, base, base - s1⟩] }
        | none =>
          .ok { st with drop_bfrange_items :=
                  st.drop_bfrange_items ++ [⟨s1, e1, base, base - s1⟩] }
      | .pint _ => .error "TypeError"
  | _ => .ok st

/-- The `ENDBFRANGE` keyword action over the drained stack. -/
def do_endbfrange (st : ParserState) (objs : List PSObj) : Except String ParserState :=
  (chop3 objs).foldlM do_bfrange_group st

/-! ### The code-to-CID trie (`CMap.code2cid`)

A Python dict whose values are either a nested dict or an integer CID leaf. -/

inductive TNode where
  | leaf : Int → TNode
  | branch : List (Nat × TNode) → TNode

abbrev Trie := List (Nat × TNode)

def tfind : Trie → Nat → Option TNode
  | [], _ => none
  | (k, v) :: r, c => if k = c then some v else tfind r c

def tupd : Trie → Nat → TNode → Trie
  | [], c, v => [(c, v)]
  | (k, w) :: r, c, v => if k = c then (c, v) :: r else (k, w) :: tupd r c v

/-- `FileCMap.add_code2cid(code, cid)` (cmapdb.py lines 320-333): walk the
bytes of `code` but the last, descending into existing entries and creating
fresh dicts at misses, then assign the CID at the last byte.  Descending
into an integer leaf applies a dict operation to an `int` and raises
`TypeError`; an empty code raises `IndexError` (`code[-1]` on `''`). -/
def add_code2cid (d : Trie) : List Nat → Int → Except String Trie
  | [], _ => .error "IndexError"
  | [b], cid => .ok (tupd d b (.leaf cid))
  | b :: bs, cid =>
    match tfind d b with
    | some (.branch d') => (add_code2cid d' bs cid).map (fun d'' => tupd d b (.branch d''))
    | some (.leaf _) => .error "TypeError"
    | none => (add_code2cid [] bs cid).map (fun d'' => tupd d b (.branch d''))

/-- `CMap.decode(code)` (cmapdb.py lines 253-266): walk the trie byte by
byte; a CID leaf is emitted and the walk resets to the root; a byte with no
outgoing edge silently resets the walk to the root. -/
def cmap_decode_aux (root : Trie) : Trie → List Nat → List Int
  | _, [] => []
  | d, b :: bs =>
    match tfind d b with
    | some (.leaf cid) => cid :: cmap_decode_aux root root bs
    | some (.branch d') => cmap_decode_aux root d' bs
    | none => cmap_decode_aux root root bs

def cmap_decode (t : Trie) (code : List Nat) : List Int :=
  cmap_decode_aux t t code

/-- `reachesB d code cid`: walking `code` from the dict `d` descends through
branch nodes on every byte but the last and lands on the CID leaf `cid` at
the last byte — i.e. the trie represents the binding `code -> cid`. -/
def reachesB (d : Trie) : List Nat → Int → Bool
  | [], _ => false
  | [b], cid =>
    match tfind d b with
    | some (.leaf c) => c = cid
    | _ => false
  | b :: b2 :: bs, cid =>
    match tfind d b with
    | some (.branch d') => reachesB d' (b2 :: bs) cid
    | _ => false

/-- `cleanB d code`: walking the bytes of `code` but the last from `d` never
descends into a CID leaf (so `add_code2cid` will not raise `TypeError`);
once a byte is missing, fresh dicts are created and the rest is clean. -/
def cleanB (d : Trie) : List Nat → Bool
  | [] => true
  | [_] => true
  | b :: b2 :: bs =>
    match tfind d b with
    | some (.branch d') => cleanB d' (b2 :: bs)
    | some (.leaf _) => false
    | none => true

/-- Insert a list of `(code, cid)` pairs through `add_code2cid`, as the
`endcidrange` / `endcidchar` keyword actions do. -/
def insert_all (t : Trie) (pairs : List (List Nat × Int)) : Except String Trie :=
  pairs.foldlM (fun d p => add_code2cid d p.1 p.2) t

mutual
/-- The fresh-dict copy performed by `CMap.use_cmap`'s inner `copy`
(cmapdb.py lines 242-249): an integer leaf is assigned as is, a dict value
is rebuilt recursively into a fresh dict. -/
def deepcopy_node : TNode → TNode
  | .leaf n => .leaf n
  | .branch l => .branch (deepcopy_trie l)

def deepcopy_trie : List (Nat × TNode) → List (Nat × TNode)
  | [] => []
  | (k, v) :: r => (k, deepcopy_node v) :: deepcopy_trie r
end

/-- `CMap.use_cmap(cmap)` (cmapdb.py lines 239-251): for each key of the
source dict, install (a fresh copy of) the source value at that key of the
destination, replacing whatever was there. -/
def use_cmap (dst src : Trie) : Trie :=
  src.foldl (fun d kv => tupd d kv.1 (deepcopy_node kv.2)) dst

/-- One `(s, e, cid)` group of the `endcidrange` handler
(cmapdb.py lines 554-573). -/
def do_cidrange_group (t : Trie) : PSObj × PSObj × PSObj → Except String Trie
  | (.pstr s, .pstr e, .pint cid) =>
    if s.length ≠ e.length then .ok t
    else
      let sPre := drop_last4 s
      let ePre := drop_last4 e
      if sPre ≠ ePre then .ok t
      else
        let svar := last4 s
        let evar := last4 e
        let s1 := nunpack svar
        let e1 := nunpack evar
        let vlen := svar.length
        (int_range (e1 - s1 + 1)).foldlM
          (fun d i => do
            let packed ← pack_be32 (s1 + i)
            add_code2cid d (sPre ++ suffix_len packed vlen) (cid + i)) t
  | _ => .ok t

/-- The `ENDCIDRANGE` keyword action over the drained stack. -/
def do_endcidrange (t : Trie) (objs : List PSObj) : Except String Trie :=
  (chop3 objs).foldlM do_cidrange_group t

/-- One `(cid, code)` group of the `endcidchar` handler
(cmapdb.py lines 578-583). -/
def do_cidchar_group (t : Trie) : PSObj × PSObj → Except String Trie
  | (.pstr cid, .pstr code) => add_code2cid t code (nunpack cid)
  | _ => .ok t

/-! ### The fixup pass (`fixup_cmaps` and helpers) -/

/-- One step of Python's stable ascending `sorted(..., key=lambda x: x[0])`:
insert after every element whose key does not exceed the new one. -/
def py_insert (x : BfItem) : List BfItem → List BfItem
  | [] => [x]
  | y :: ys => if x.s < y.s then x :: y :: ys else y :: py_insert x ys

/-- Python's `sorted(bfranges, key=lambda x: x[0])` (a stable ascending sort
by `cid_start`). -/
def py_sorted (l : List BfItem) : List BfItem :=
  l.foldl (fun acc x => py_insert x acc) []

/-- The gap back-fill of the merge branch of `fill_cmap_by_ranges`
(cmapdb.py lines 676-678): `for i in range(a, b): add_cid2unichr(i, i+off)`
over the integer path of `add_cid2unichr`. -/
def bf_backfill (tbl : UTable) (a b off : Int) : Except String UTable :=
  (int_range (b - a)).foldlM
    (fun t j => add_cid2unichr t (a + j) (.pint (a + j + off))) tbl

/-- The loop body of `fill_cmap_by_ranges` (cmapdb.py lines 665-689),
walking the sorted entries with `last_merged` and `prev`.  In the source
`prev` and `last_merged` are set together at the first item, so the branches
reading `last_merged` while it is `None` are unreachable (marked by the
errors Python would raise there). -/
def fill_loop (add_to_map : Bool) (tbl : UTable) (last_merged prev : Option BfItem)
    (res : List BfItem) : List BfItem → Except String (List BfItem × UTable)
  | [] => .ok (res ++ (match last_merged with | some lm => [lm] | none => []), tbl)
  | item :: rest =>
    match prev with
    | some p =>
      if item.base - item.s = p.base - p.s then
        let off := item.base - item.s
        match last_merged with
        | some lm => do
          let tbl' ←
            if add_to_map then bf_backfill tbl (p.e + 1) item.s off
            else .ok tbl
          fill_loop add_to_map tbl' (some ⟨lm.s, item.e, lm.base, off⟩) (some item) res rest
        | none => .error "TypeError"
      else
        match last_merged with
        | some lm => fill_loop add_to_map tbl (some item) (some item) (res ++ [lm]) rest
        | none => .error "TypeError"
    | none => fill_loop add_to_map tbl (some item) (some item) res rest

/-- `CMapParser.fill_cmap_by_ranges(bfranges, add_to_map)`
(cmapdb.py lines 665-689), returning the merged entry list together with the
updated CID-to-Unicode table. -/
def fill_cmap_by_ranges (tbl : UTable) (bfranges : List BfItem) (add_to_map : Bool) :
    Except String (List BfItem × UTable) :=
  fill_loop add_to_map tbl none none [] (py_sorted bfranges)

/-- `CMapParser.is_subset_of_ranges(bfranges, range)`
(cmapdb.py lines 691-700): the first entry other than `range` itself (by
tuple value) whose unicode interval contains `range`'s. -/
def is_subset_of_ranges (bfranges : List BfItem) (r : BfItem) : Option BfItem :=
  bfranges.find? (fun item =>
    decide (item ≠ r ∧ item.base ≤ r.base ∧ r.base + r.e - r.s ≤ item.base + item.e - item.s))

/-- `CMapParser.fixup_cmaps()` (cmapdb.py lines 635-663). -/
def fixup_cmaps (st : ParserState) : Except String ParserState :=
  if st.cmap_bfrange_items = [] then .ok st
  else do
    let (merged, tbl₁) ← fill_cmap_by_ranges st.cmap.cid2unichr st.cmap_bfrange_items true
    if merged.length = st.cmap_bfrange_items.length then
      .ok { st with cmap := { st.cmap with cid2unichr := tbl₁ } }
    else
      let results := merged.filter (fun item => (is_subset_of_ranges merged item).isNone)
      let (final, tbl₂) ←
        if results.length ≠ merged.length then fill_cmap_by_ranges tbl₁ results true
        else .ok (results, tbl₁)
      .ok { st with
            cmap := { cid2unichr := tbl₂, bfranges := py_sorted final }
            cmap_bfrange_items := [] }

/-- `CMapParser.run()` restricted to a single drained `endbfrange` operand
stack followed by end of input: process the groups, then run the fixup pass
once (cmapdb.py lines 488-496). -/
def run_bfrange_stream (objs : List PSObj) : Except String ParserState := do
  let st ← do_endbfrange ParserState.init objs
  fixup_cmaps st

/-! ### Extrapolation lookup (`get_nearest_bfrange`, `get_unichr`) -/

/-- `FileUnicodeMap.is_same_charset(cid, bfrangeitem)`
(cmapdb.py lines 379-383). -/
def is_same_charset (cid : Int) (item : BfItem) : Bool :=
  match get_unicode_charset_entry (cid + item.off) with
  | some charset => decide (charset.1 ≤ item.base ∧ item.base ≤ charset.2)
  | none => false

/-- The early-return value of the loop of `get_nearest_bfrange` at the first
entry with `cid < item[0]` (cmapdb.py lines 363-372). -/
def nearest_select (cid : Int) : Option BfItem → BfItem → Option BfItem
  | some p, item =>
    if is_same_charset cid p && is_same_charset cid item then
      if cid - p.e < item.s - cid then some p else some item
    else if is_same_charset cid p then some p
    else if is_same_charset cid item then some item
    else none
  | none, item => if is_same_charset cid item then some item else none

/-- The loop of `get_nearest_bfrange`: `some r` when the loop returned `r`
early, `none` when it ran off the end of the list. -/
def get_nearest_loop (cid : Int) (prev : Option BfItem) : List BfItem → Option (Option BfItem)
  | [] => none
  | item :: rest =>
    if cid < item.s then some (nearest_select cid prev item)
    else get_nearest_loop cid (some item) rest

/-- `FileUnicodeMap.get_nearest_bfrange(cid)` (cmapdb.py lines 358-377). -/
def get_nearest_bfrange (m : FileUnicodeMap) (cid : Int) : Option BfItem :=
  match get_nearest_loop cid none m.bfranges with
  | some r => r
  | none =>
    match m.bfranges.getLast? with
    | some last => if is_same_charset cid last then some last else none
    | none => none

/-- `FileUnicodeMap.get_unichr(cid)` (cmapdb.py lines 385-393), returning
the unicode value together with the possibly-extended map; the final direct
lookup raises `KeyError` when the CID is still absent. -/
def get_unichr (m : FileUnicodeMap) (cid : Int) : Except String (List Int × FileUnicodeMap) := do
  let m' ←
    if (afind m.cid2unichr cid).isNone then
      match get_nearest_bfrange m cid with
      | some item =>
        (add_cid2unichr m.cid2unichr cid (.pint (cid + item.off))).map
          (fun t => { m with cid2unichr := t })
      | none => .ok m
    else .ok m
  match afind m'.cid2unichr cid with
  | some v => .ok (v, m')
  | none => .error "KeyError"

/-! ### `IdentityCMap` and `CMapDB.get_cmap` -/

/-- The big-endian 16-bit values of consecutive byte pairs
(`struct.unpack('>%dH' % n, code)` on a buffer of exactly `2*n` bytes). -/
def be_pairs : List Nat → List Int
  | a :: b :: r => (256 * (a : Int) + b) :: be_pairs r
  | _ => []

/-- `IdentityCMap.decode(code)` (cmapdb.py lines 285-290): `struct.unpack`
demands a buffer of exactly `2*n` bytes, so an odd byte count of at least 3
raises `struct.error`; `n = 0` (zero or one byte) returns the empty tuple. -/
def identity_decode (code : List Nat) : Except String (List Int) :=
  let n := code.length / 2
  if n ≠ 0 then
    if code.length = 2 * n then .ok (be_pairs code) else .error "struct.error"
  else .ok []

/-- A Mapping Store as returned by `CMapDB.get_cmap`: one of the two
stateless identity maps (carrying `WMode`), or a trie-backed map built from
a deserialized resource module. -/
inductive CMapStore where
  | identity : Int → CMapStore
  | py : String → Trie → CMapStore

/-- `CMapDB.get_cmap(name)` (cmapdb.py lines 449-461).  The disk search of
`_load_data` is abstracted as the oracle `load_data`; the identity names
return before the cache or the oracle is consulted. -/
def get_cmap (cache : List (String × CMapStore)) (load_data : String → Except String Trie)
    (name : String) : Except String CMapStore :=
  if name = "Identity-H" then .ok (.identity 0)
  else if name = "Identity-V" then .ok (.identity 1)
  else
    match (cache.find? (fun kv => decide (kv.1 = name))).map (fun kv => kv.2) with
    | some cm => .ok cm
    | none => (load_data name).map (fun t => .py name t)

/-- `decode` on a store returned by `get_cmap`. -/
def cmap_store_decode : CMapStore → List Nat → Except String (List Int)
  | .identity _, code => identity_decode code
  | .py _ t, code => .ok (cmap_decode t code)

/-! ### Basic lemmas about the association-list operations -/

theorem afind_aupd_self (t : UTable) (c : Int) (v : List Int) :
    afind (aupd t c v) c = some v := by
  induction t with
  | nil => simp [aupd, afind]
  | cons kv r ih =>
    obtain ⟨k, w⟩ := kv
    by_cases h : k = c
    · simp [aupd, h, afind]
    · simp [aupd, h, afind, ih]

theorem afind_aupd_ne (t : UTable) (c c' : Int) (v : List Int) (h : c' ≠ c) :
    afind (aupd t c v) c' = afind t c' := by
  have hcc : ¬(c = c') := fun hh => h hh.symm
  induction t with
  | nil => simp [aupd, afind, hcc]
  | cons kv r ih =>
    obtain ⟨k, w⟩ := kv
    by_cases hk : k = c
    · subst hk
      simp [aupd, afind, hcc]
    · simp only [aupd, if_neg hk, afind]
      by_cases hk' : k = c' <;> simp [hk', ih]

theorem tfind_tupd_self (t : Trie) (c : Nat) (v : TNode) :
    tfind (tupd t c v) c = some v := by
  induction t with
  | nil => simp [tupd, tfind]
  | cons kv r ih =>
    obtain ⟨k, w⟩ := kv
    by_cases h : k = c
    · simp [tupd, h, tfind]
    · simp [tupd, h, tfind, ih]

theorem tfind_tupd_ne (t : Trie) (c c' : Nat) (v : TNode) (h : c' ≠ c) :
    tfind (tupd t c v) c' = tfind t c' := by
  have hcc : ¬(c = c') := fun hh => h hh.symm
  induction t with
  | nil => simp [tupd, tfind, hcc]
  | cons kv r ih =>
    obtain ⟨k, w⟩ := kv
    by_cases hk : k = c
    · subst hk
      simp [tupd, tfind, hcc]
    · simp only [tupd, if_neg hk, tfind]
      by_cases hk' : k = c' <;> simp [hk', ih]

/-! ### Bounds of the Unicode block table -/

/-- Every block of the source table has a nonnegative low bound and a high
bound of at most `0xFFFF`. -/
theorem unicode_charset_map_bounds :
    ∀ it ∈ unicode_charset_map, 0 ≤ it.1 ∧ it.2 ≤ 0xFFFF := by decide

theorem get_unicode_charset_entry_some {x : Int} {it : Int × Int}
    (h : get_unicode_charset_entry x = some it) :
    it ∈ unicode_charset_map ∧ it.1 ≤ x ∧ x ≤ it.2 := by
  have hmem := List.mem_of_find?_eq_some h
  have hp := List.find?_some h
  simp only [decide_eq_true_eq] at hp
  exact ⟨hmem, hp⟩

/-- A scalar inside some block of the table lies in `[0, 0xFFFF]`. -/
theorem get_unicode_charset_entry_bound {x : Int} {it : Int × Int}
    (h : get_unicode_charset_entry x = some it) : 0 ≤ x ∧ x ≤ 0xFFFF := by
  obtain ⟨hmem, hlo, hhi⟩ := get_unicode_charset_entry_some h
  obtain ⟨h0, h1⟩ := unicode_charset_map_bounds it hmem
  exact ⟨le_trans h0 hlo, le_trans hhi h1⟩

/-! ### Claim C3: `Identity-H` decoding -/

/-- C3, counterexample: on the 3-byte input `[0, 0, 7]` the identity decode
raises `struct.error` (`struct.unpack('>1H')` demands exactly 2 bytes); the
claimed behavior — dropping the trailing byte and returning the leading
pair — does not happen. -/
theorem c3_counterexample :
    identity_decode [0, 0, 7] = .error "struct.error"
    ∧ ¬ identity_decode [0, 0, 7] = .ok [0] := by
  refine ⟨rfl, fun h => ?_⟩
  rw [show identity_decode [0, 0, 7] = .error "struct.error" from rfl] at h
  exact Except.noConfusion h

/-- C3, amended: `get_cmap("Identity-H")` returns the identity store without
consulting the cache or the resource loader (both universally quantified),
and its decode yields the big-endian 16-bit values of the byte pairs for any
even-length input; a single byte yields the empty sequence, but an odd byte
count of at least 3 raises `struct.error` instead of dropping the trailing
byte. -/
theorem c3_amended (code : List Nat) (cache : List (String × CMapStore))
    (load_data : String → Except String Trie) :
    get_cmap cache load_data "Identity-H" = .ok (.identity 0)
    ∧ (code.length % 2 = 0 → cmap_store_decode (.identity 0) code = .ok (be_pairs code))
    ∧ (code.length = 1 → cmap_store_decode (.identity 0) code = .ok [])
    ∧ (code.length % 2 = 1 → 3 ≤ code.length →
        cmap_store_decode (.identity 0) code = .error "struct.error") := by
  refine ⟨rfl, ?_, ?_, ?_⟩
  · intro h
    by_cases hn : code.length / 2 = 0
    · have hlen : code.length = 0 := by omega
      have hc : code = [] := List.eq_nil_of_length_eq_zero hlen
      subst hc; rfl
    · have h2 : code.length = 2 * (code.length / 2) := by omega
      simp [cmap_store_decode, identity_decode, hn, ← h2]
  · intro h
    have hn : code.length / 2 = 0 := by omega
    simp [cmap_store_decode, identity_decode, hn]
  · intro h h3
    have hn : ¬ code.length / 2 = 0 := by omega
    have hne : ¬ code.length = 2 * (code.length / 2) := by omega
    simp [cmap_store_decode, identity_decode, hn, hne]

/-- C3, witness for the amended theorem at a concrete input. -/
theorem c3_witness :
    get_cmap [] (fun _ => .error "CMapNotFound") "Identity-H" = .ok (.identity 0)
    ∧ cmap_store_decode (.identity 0) [0, 65] = .ok [65] := by
  obtain ⟨h1, h2, h3, h4⟩ := c3_amended [0, 65] [] (fun _ => .error "CMapNotFound")
  refine ⟨h1, ?_⟩
  have hb : be_pairs [0, 65] = [65] := rfl
  have := h2 (by decide)
  rwa [hb] at this

/-! ### Claim C10: an accepted end CID of 0 is dropped -/

/-- C10: when `verify_char_set` returns the accepted end CID `0`, the group
is recorded as dropped exactly as in the no-known-block case — the state
update below touches only `drop_bfrange_items`, so nothing is installed in
the CID-to-Unicode table and no accepted entry is recorded (`if e2:` treats
the integer `0` like `None`). -/
theorem c10_spec (st : ParserState) (s e cbs : List Nat) (h1 : s.length = e.length)
    (h2 : verify_char_set (nunpack s) (nunpack e) (nunpack (last4 cbs)) = some 0) :
    do_bfrange_group st (.pstr s, .pstr e, .pstr cbs) =
      .ok { st with drop_bfrange_items := st.drop_bfrange_items ++
              [⟨nunpack s, nunpack e, nunpack (last4 cbs), nunpack (last4 cbs) - nunpack s⟩] } := by
  simp [do_bfrange_group, h1, h2]

/-- C10, witness: the single-entry range with start and end CID 0 and base
scalar `0x41` (inside the Basic Latin block) is dropped whole. -/
theorem c10_witness :
    do_bfrange_group ParserState.init (.pstr [0], .pstr [0], .pstr [0x41]) =
      .ok ⟨⟨[], []⟩, [], [⟨0, 0, 0x41, 0x41⟩]⟩ := by
  have h := c10_spec ParserState.init [0] [0] [0x41] rfl (by decide)
  exact h

/-! ### Claim C1: truncation at a block boundary -/

/-- C1, counterexample: the group `(s=1, e=10, base=0x7E)` has its base in
the Basic Latin block `(0, 0x7F)` whose upper bound is reached after one
step, before the nine requested steps.  The last CID whose mapped scalar
stays inside the block is 2 (mapped to `0x7F`), yet the installed table
binds only CID 1 (CID 2 is absent), and the dropped-items diagnostic stays
empty — the untruncated tail is not recorded there. -/
theorem c1_counterexample :
    get_unicode_charset_entry 0x7E = some (0, 0x7F)
    ∧ (0x7F : Int) - 0x7E + 1 < 10
    ∧ do_endbfrange ParserState.init [.pstr [1], .pstr [10], .pstr [0x7E]] =
        .ok ⟨⟨[(1, [])], []⟩, [⟨1, 1, 0x7E, 0x7D⟩], []⟩
    ∧ afind [(1, [])] 2 = none := by
  exact ⟨rfl, by decide, rfl, rfl⟩

theorem int_range_one : int_range 1 = [0] := rfl

/-- C1, amended: for a base-form bfrange group whose base scalar lies inside
a known Unicode block whose upper bound is reached before `e1 - s1` steps,
and whose start CID is nonzero, `verify_char_set` returns the *start* CID
`s1`, so the installed mapping is truncated to the single CID `s1`; the
accepted entry `(s1, s1, base, base - s1)` is recorded, and the untruncated
tail is neither installed nor recorded in the dropped-items diagnostic
(`drop_bfrange_items` is unchanged in the resulting state). -/
theorem c1_amended (st : ParserState) (s e cbs : List Nat) (blk : Int × Int)
    (h1 : s.length = e.length)
    (hblk : get_unicode_charset_entry (nunpack (last4 cbs)) = some blk)
    (htr : blk.2 - nunpack (last4 cbs) + nunpack s < nunpack e)
    (hs1 : nunpack s ≠ 0) :
    ∃ v, do_bfrange_group st (.pstr s, .pstr e, .pstr cbs) =
      .ok { st with
            cmap := { st.cmap with
              cid2unichr := aupd st.cmap.cid2unichr (nunpack s) v }
            cmap_bfrange_items := st.cmap_bfrange_items ++
              [⟨nunpack s, nunpack s, nunpack (last4 cbs),
                nunpack (last4 cbs) - nunpack s⟩] } := by
  have hv : verify_char_set (nunpack s) (nunpack e) (nunpack (last4 cbs)) =
      some (nunpack s) := by
    simp [verify_char_set, hblk, htr]
  have hbound := get_unicode_charset_entry_bound hblk
  have hpack : pack_be32 (nunpack (last4 cbs)) =
      .ok [(nunpack (last4 cbs)).toNat / 0x1000000 % 256,
           (nunpack (last4 cbs)).toNat / 0x10000 % 256,
           (nunpack (last4 cbs)).toNat / 0x100 % 256,
           (nunpack (last4 cbs)).toNat % 256] := by
    rw [pack_be32, if_pos]
    exact ⟨hbound.1, by omega⟩
  have hr : nunpack s - nunpack s + 1 = 1 := by ring
  refine ⟨utf16be_decode (drop_last4 cbs ++
    suffix_len [(nunpack (last4 cbs)).toNat / 0x1000000 % 256,
                (nunpack (last4 cbs)).toNat / 0x10000 % 256,
                (nunpack (last4 cbs)).toNat / 0x100 % 256,
                (nunpack (last4 cbs)).toNat % 256] (last4 cbs).length), ?_⟩
  simp only [do_bfrange_group, h1, ne_eq, not_true_eq_false, if_false, hv, hs1,
    not_false_eq_true, if_true, hr, int_range_one, List.foldlM, hpack, add_zero]
  rfl

/-- C1, witness for the amended theorem: the counterexample group, whose
installed table has an entry for CID 1 only and whose dropped list is
empty. -/
theorem c1_witness :
    (do_bfrange_group ParserState.init (.pstr [1], .pstr [10], .pstr [0x7E])).map
      (fun st => (st.cmap_bfrange_items, st.drop_bfrange_items,
                  (afind st.cmap.cid2unichr 1).isSome, afind st.cmap.cid2unichr 2)) =
      .ok ([⟨1, 1, 0x7E, 0x7D⟩], [], true, none) := by
  obtain ⟨v, hv⟩ := c1_amended ParserState.init [1] [10] [0x7E] (0, 0x7F) rfl (by decide)
    (by decide) (by decide)
  rw [hv]
  have e1 : nunpack [1] = 1 := rfl
  have e2 : nunpack (last4 [0x7E]) = 0x7E := rfl
  simp [Except.map, ParserState.init, e1, e2, afind_aupd_self, afind_aupd_ne, afind]

/-! ### Trie lemmas: insertion and decoding -/

theorem cleanB_nil_trie : ∀ bs : List Nat, cleanB [] bs = true := by
  intro bs
  match bs with
  | [] => rfl
  | [b] => rfl
  | b :: b2 :: bs2 => simp [cleanB, tfind]

/-- A clean, nonempty insertion succeeds and establishes its own binding. -/
theorem add_code2cid_ok (cid : Int) :
    ∀ (code : List Nat) (d : Trie), code ≠ [] → cleanB d code = true →
      ∃ d', add_code2cid d code cid = .ok d' ∧ reachesB d' code cid = true := by
  intro code
  induction code with
  | nil => intro d h _; exact absurd rfl h
  | cons b bs ih =>
    intro d _ hclean
    cases bs with
    | nil =>
      exact ⟨tupd d b (.leaf cid), rfl, by simp [reachesB, tfind_tupd_self]⟩
    | cons b2 bs2 =>
      cases htf : tfind d b with
      | none =>
        obtain ⟨d'', hok, hreach⟩ := ih [] (by simp) (cleanB_nil_trie (b2 :: bs2))
        refine ⟨tupd d b (.branch d''), ?_, ?_⟩
        · simp [add_code2cid, htf, hok, Except.map]
        · simp [reachesB, tfind_tupd_self, hreach]
      | some node =>
        cases node with
        | leaf c => simp [cleanB, htf] at hclean
        | branch d' =>
          have hclean' : cleanB d' (b2 :: bs2) = true := by
            simpa [cleanB, htf] using hclean
          obtain ⟨d'', hok, hreach⟩ := ih d' (by simp) hclean'
          refine ⟨tupd d b (.branch d''), ?_, ?_⟩
          · simp [add_code2cid, htf, hok, Except.map]
          · simp [reachesB, tfind_tupd_self, hreach]

theorem except_map_ok {ε α β : Type} (f : α → β) (x : Except ε α) (b : β)
    (h : Except.map f x = .ok b) : ∃ a, x = .ok a ∧ b = f a := by
  cases x with
  | error e => simp [Except.map] at h
  | ok a =>
    refine ⟨a, rfl, ?_⟩
    have : Except.map f (Except.ok a : Except ε α) = .ok (f a) := rfl
    rw [this] at h
    cases h
    rfl

/-- Inserting a non-prefix-conflicting code preserves an existing binding. -/
theorem reachesB_insert (cid' : Int) :
    ∀ (c : List Nat) (d : Trie) (k : Int) (c' : List Nat) (d' : Trie),
      reachesB d c k = true → ¬ c <+: c' → ¬ c' <+: c →
      add_code2cid d c' cid' = .ok d' → reachesB d' c k = true := by
  intro c
  induction c with
  | nil => intro d k c' d' hreach _ _ _; simp [reachesB] at hreach
  | cons b bs ih =>
    intro d k c' d' hreach hcc' hc'c hok
    cases bs with
    | nil =>
      -- c = [b]; the trie holds a leaf at b
      cases htf : tfind d b with
      | none => simp [reachesB, htf] at hreach
      | some node =>
        cases node with
        | branch _ => simp [reachesB, htf] at hreach
        | leaf ck =>
          have hck : ck = k := by simpa [reachesB, htf] using hreach
          subst hck
          match c' with
          | [] => simp [add_code2cid] at hok
          | [b'] =>
            have hbb : b' ≠ b := by
              intro hb; exact hcc' (by simp [hb, List.prefix_refl])
            simp only [add_code2cid] at hok
            cases hok
            simp [reachesB, tfind_tupd_ne _ _ _ _ (Ne.symm hbb), htf]
          | b' :: b2' :: bs' =>
            by_cases hbb : b' = b
            · subst hbb
              simp [add_code2cid, htf] at hok
            · cases htf' : tfind d b' with
              | none =>
                simp only [add_code2cid, htf'] at hok
                obtain ⟨d₂, hin, hd'⟩ := except_map_ok _ _ _ hok
                subst hd'
                simp [reachesB, tfind_tupd_ne _ _ _ _ (Ne.symm hbb), htf]
              | some node' =>
                cases node' with
                | leaf _ => simp [add_code2cid, htf'] at hok
                | branch db' =>
                  simp only [add_code2cid, htf'] at hok
                  obtain ⟨d₂, hin, hd'⟩ := except_map_ok _ _ _ hok
                  subst hd'
                  simp [reachesB, tfind_tupd_ne _ _ _ _ (Ne.symm hbb), htf]
    | cons b2 bs2 =>
      -- c = b :: b2 :: bs2; the trie holds a branch at b
      cases htf : tfind d b with
      | none => simp [reachesB, htf] at hreach
      | some node =>
        cases node with
        | leaf _ => simp [reachesB, htf] at hreach
        | branch db =>
          have hreach' : reachesB db (b2 :: bs2) k = true := by
            simpa [reachesB, htf] using hreach
          match c' with
          | [] => simp [add_code2cid] at hok
          | [b'] =>
            have hbb : b' ≠ b := by
              intro hb; subst hb
              exact hc'c ⟨b2 :: bs2, rfl⟩
            simp only [add_code2cid] at hok
            cases hok
            simp [reachesB, tfind_tupd_ne _ _ _ _ (Ne.symm hbb), htf, hreach']
          | b' :: b2' :: bs' =>
            by_cases hbb : b' = b
            · subst hbb
              simp only [add_code2cid, htf] at hok
              obtain ⟨db', hin, hd'⟩ := except_map_ok _ _ _ hok
              subst hd'
              have ihres : reachesB db' (b2 :: bs2) k = true := by
                refine ih db k (b2' :: bs') db' hreach' ?_ ?_ hin
                · intro hpre; exact hcc' (List.cons_prefix_cons.mpr ⟨rfl, hpre⟩)
                · intro hpre; exact hc'c (List.cons_prefix_cons.mpr ⟨rfl, hpre⟩)
              simp [reachesB, tfind_tupd_self, ihres]
            · cases htf' : tfind d b' with
              | none =>
                simp only [add_code2cid, htf'] at hok
                obtain ⟨d₂, hin, hd'⟩ := except_map_ok _ _ _ hok
                subst hd'
                simp [reachesB, tfind_tupd_ne _ _ _ _ (Ne.symm hbb), htf, hreach']
              | some node' =>
                cases node' with
                | leaf _ => simp [add_code2cid, htf'] at hok
                | branch db'' =>
                  simp only [add_code2cid, htf'] at hok
                  obtain ⟨d₂, hin, hd'⟩ := except_map_ok _ _ _ hok
                  subst hd'
                  simp [reachesB, tfind_tupd_ne _ _ _ _ (Ne.symm hbb), htf, hreach']

/-- The fresh chain built by inserting into an empty dict is clean for every
code it is not a prefix of. -/
theorem cleanB_fresh (cid' : Int) :
    ∀ (cs : List Nat) (d'' : Trie) (bs : List Nat),
      add_code2cid [] cs cid' = .ok d'' → ¬ cs <+: bs → cleanB d'' bs = true := by
  intro cs
  induction cs with
  | nil => intro d'' bs hok _; simp [add_code2cid] at hok
  | cons c0 cs2 ih =>
    intro d'' bs hok hpre
    cases cs2 with
    | nil =>
      -- cs = [c0], d'' = [(c0, leaf cid')]
      simp only [add_code2cid] at hok
      cases hok
      match bs with
      | [] => rfl
      | [x] => rfl
      | x :: x2 :: xs =>
        have hx : ¬ (c0 = x) := by
          intro hh; subst hh
          exact hpre (List.cons_prefix_cons.mpr ⟨rfl, List.nil_prefix⟩)
        simp [cleanB, tupd, tfind, hx]
    | cons c1 cs3 =>
      simp only [add_code2cid, tfind] at hok
      obtain ⟨d₂, hin, hd'⟩ := except_map_ok _ _ _ hok
      subst hd'
      match bs with
      | [] => rfl
      | [x] => rfl
      | x :: x2 :: xs =>
        by_cases hx : x = c0
        · subst hx
          have := ih d₂ (x2 :: xs) hin
            (fun hp => hpre (List.cons_prefix_cons.mpr ⟨rfl, hp⟩))
          simp [cleanB, tupd, tfind, this]
        · have hcx : ¬ (c0 = x) := fun hh => hx hh.symm
          simp [cleanB, tupd, tfind, hcx]

/-- Inserting a code that is not a prefix of `c` keeps `c`'s walk clean. -/
theorem cleanB_insert (cid' : Int) :
    ∀ (c : List Nat) (d : Trie) (c' : List Nat) (d' : Trie),
      cleanB d c = true → ¬ c' <+: c →
      add_code2cid d c' cid' = .ok d' → cleanB d' c = true := by
  intro c
  induction c with
  | nil => intro d c' d' _ _ _; rfl
  | cons b bs ih =>
    intro d c' d' hclean hpre hok
    cases bs with
    | nil => rfl
    | cons b2 bs2 =>
      cases htf : tfind d b with
      | some node =>
        cases node with
        | leaf _ => simp [cleanB, htf] at hclean
        | branch db =>
          have hclean' : cleanB db (b2 :: bs2) = true := by
            simpa [cleanB, htf] using hclean
          match c' with
          | [] => simp [add_code2cid] at hok
          | [b'] =>
            have hbb : b' ≠ b := by
              intro hb; subst hb
              exact hpre ⟨b2 :: bs2, rfl⟩
            simp only [add_code2cid] at hok
            cases hok
            simp [cleanB, tfind_tupd_ne _ _ _ _ (Ne.symm hbb), htf, hclean']
          | b' :: b2' :: bs' =>
            by_cases hbb : b' = b
            · subst hbb
              simp only [add_code2cid, htf] at hok
              obtain ⟨db', hin, hd'⟩ := except_map_ok _ _ _ hok
              subst hd'
              have ihres : cleanB db' (b2 :: bs2) = true := by
                refine ih db (b2' :: bs') db' hclean' ?_ hin
                intro hp; exact hpre (List.cons_prefix_cons.mpr ⟨rfl, hp⟩)
              simp [cleanB, tfind_tupd_self, ihres]
            · cases htf' : tfind d b' with
              | none =>
                simp only [add_code2cid, htf'] at hok
                obtain ⟨d₂, hin, hd'⟩ := except_map_ok _ _ _ hok
                subst hd'
                simp [cleanB, tfind_tupd_ne _ _ _ _ (Ne.symm hbb), htf, hclean']
              | some node' =>
                cases node' with
                | leaf _ => simp [add_code2cid, htf'] at hok
                | branch db'' =>
                  simp only [add_code2cid, htf'] at hok
                  obtain ⟨d₂, hin, hd'⟩ := except_map_ok _ _ _ hok
                  subst hd'
                  simp [cleanB, tfind_tupd_ne _ _ _ _ (Ne.symm hbb), htf, hclean']
      | none =>
        match c' with
        | [] => simp [add_code2cid] at hok
        | [b'] =>
          have hbb : b' ≠ b := by
            intro hb; subst hb
            exact hpre ⟨b2 :: bs2, rfl⟩
          simp only [add_code2cid] at hok
          cases hok
          simp [cleanB, tfind_tupd_ne _ _ _ _ (Ne.symm hbb), htf]
        | b' :: b2' :: bs' =>
          by_cases hbb : b' = b
          · subst hbb
            simp only [add_code2cid, htf] at hok
            obtain ⟨d₂, hin, hd'⟩ := except_map_ok _ _ _ hok
            subst hd'
            have hfresh : cleanB d₂ (b2 :: bs2) = true :=
              cleanB_fresh cid' (b2' :: bs') d₂ (b2 :: bs2) hin
                (fun hp => hpre (List.cons_prefix_cons.mpr ⟨rfl, hp⟩))
            simp [cleanB, tfind_tupd_self, hfresh]
          · cases htf' : tfind d b' with
            | none =>
              simp only [add_code2cid, htf'] at hok
              obtain ⟨d₂, hin, hd'⟩ := except_map_ok _ _ _ hok
              subst hd'
              simp [cleanB, tfind_tupd_ne _ _ _ _ (Ne.symm hbb), htf]
            | some node' =>
              cases node' with
              | leaf _ => simp [add_code2cid, htf'] at hok
              | branch db'' =>
                simp only [add_code2cid, htf'] at hok
                obtain ⟨d₂, hin, hd'⟩ := except_map_ok _ _ _ hok
                subst hd'
                simp [cleanB, tfind_tupd_ne _ _ _ _ (Ne.symm hbb), htf]

/-- Inserting pairwise non-prefix-conflicting, nonempty codes into a trie
whose walks are all clean succeeds, establishes every inserted binding, and
preserves every non-conflicting existing binding. -/
theorem insert_all_ok :
    ∀ (pairs : List (List Nat × Int)) (d : Trie),
      (∀ p ∈ pairs, p.1 ≠ []) →
      List.Pairwise (fun p q => ¬ p.1 <+: q.1 ∧ ¬ q.1 <+: p.1) pairs →
      (∀ p ∈ pairs, cleanB d p.1 = true) →
      ∃ t, insert_all d pairs = .ok t
        ∧ (∀ p ∈ pairs, reachesB t p.1 p.2 = true)
        ∧ (∀ (c : List Nat) (k : Int), reachesB d c k = true →
            (∀ p ∈ pairs, ¬ c <+: p.1 ∧ ¬ p.1 <+: c) → reachesB t c k = true) := by
  intro pairs
  induction pairs with
  | nil =>
    intro d _ _ _
    exact ⟨d, rfl, by simp, fun c k h _ => h⟩
  | cons p rest ih =>
    intro d hne hpw hclean
    obtain ⟨hp, hpw'⟩ := List.pairwise_cons.mp hpw
    obtain ⟨d₁, hok₁, hreach₁⟩ :=
      add_code2cid_ok p.2 p.1 d (hne p (List.mem_cons_self p rest)) (hclean p (List.mem_cons_self p rest))
    have hclean₁ : ∀ q ∈ rest, cleanB d₁ q.1 = true := by
      intro q hq
      exact cleanB_insert p.2 q.1 d p.1 d₁ (hclean q (List.mem_cons_of_mem p hq))
        (hp q hq).1 hok₁
    obtain ⟨t, hins, hreachAll, hpres⟩ := ih d₁
      (fun q hq => hne q (List.mem_cons_of_mem p hq)) hpw' hclean₁
    refine ⟨t, ?_, ?_, ?_⟩
    · show (add_code2cid d p.1 p.2 >>= fun d' => insert_all d' rest) = .ok t
      rw [hok₁]
      exact hins
    · intro q hq
      rcases List.mem_cons.mp hq with hq | hq
      · subst hq
        exact hpres q.1 q.2 hreach₁ (fun r hr => ⟨(hp r hr).1, (hp r hr).2⟩)
      · exact hreachAll q hq
    · intro c k hreach hnc
      have h₁ : reachesB d₁ c k = true :=
        reachesB_insert p.2 c d k p.1 d₁ hreach
          (hnc p (List.mem_cons_self p rest)).1 (hnc p (List.mem_cons_self p rest)).2 hok₁
      exact hpres c k h₁ (fun q hq => hnc q (List.mem_cons_of_mem p hq))

/-- Decoding a represented code from the root emits its CID and resets the
walk to the root. -/
theorem cmap_decode_reaches (root : Trie) (k : Int) :
    ∀ (c : List Nat) (d : Trie) (rest : List Nat),
      reachesB d c k = true →
      cmap_decode_aux root d (c ++ rest) = k :: cmap_decode_aux root root rest := by
  intro c
  induction c with
  | nil => intro d rest hreach; simp [reachesB] at hreach
  | cons b bs ih =>
    intro d rest hreach
    cases bs with
    | nil =>
      cases htf : tfind d b with
      | none => simp [reachesB, htf] at hreach
      | some node =>
        cases node with
        | branch _ => simp [reachesB, htf] at hreach
        | leaf ck =>
          have hck : ck = k := by simpa [reachesB, htf] using hreach
          subst hck
          simp [cmap_decode_aux, htf]
    | cons b2 bs2 =>
      cases htf : tfind d b with
      | none => simp [reachesB, htf] at hreach
      | some node =>
        cases node with
        | leaf _ => simp [reachesB, htf] at hreach
        | branch db =>
          have hreach' : reachesB db (b2 :: bs2) k = true := by
            simpa [reachesB, htf] using hreach
          have := ih db rest hreach'
          simpa [cmap_decode_aux, htf] using this

/-- Bytes with no outgoing edge from the root are silently dropped. -/
theorem cmap_decode_drop (t : Trie) :
    ∀ (junk code : List Nat), (∀ b ∈ junk, tfind t b = none) →
      cmap_decode t (junk ++ code) = cmap_decode t code := by
  intro junk
  induction junk with
  | nil => intro code _; rfl
  | cons b junk' ih =>
    intro code hj
    have hb : tfind t b = none := hj b (List.mem_cons_self b junk')
    show cmap_decode_aux t t (b :: (junk' ++ code)) = cmap_decode t code
    rw [cmap_decode_aux, hb]
    exact ih code (fun x hx => hj x (List.mem_cons_of_mem b hx))

/-! ### Claim C6: cidrange/cidchar round trip -/

/-- C6: for any set of `(code, cid)` pairs with pairwise-distinct,
non-prefix-conflicting nonempty codes inserted via `add_code2cid` (the
shared primitive of the cidrange and cidchar paths), decoding the
concatenation of those codes in any order yields exactly the corresponding
CIDs in that order; and concretely, `begincidrange <0000> <0002> 10
endcidrange` followed by decoding the three 2-byte codes 0, 1, 2 yields
`[10, 11, 12]`. -/
theorem c6_spec :
    (∀ (pairs : List (List Nat × Int)),
      (∀ p ∈ pairs, p.1 ≠ []) →
      List.Pairwise (fun p q => ¬ p.1 <+: q.1 ∧ ¬ q.1 <+: p.1) pairs →
      ∃ t, insert_all [] pairs = .ok t ∧
        ∀ ws : List (List Nat × Int), (∀ w ∈ ws, w ∈ pairs) →
          cmap_decode t (ws.map Prod.fst).flatten = ws.map Prod.snd)
    ∧ (do_endcidrange [] [.pstr [0, 0], .pstr [0, 2], .pint 10]).map
        (fun t => cmap_decode t [0, 0, 0, 1, 0, 2]) = .ok [10, 11, 12] := by
  constructor
  · intro pairs hne hpw
    obtain ⟨t, hins, hreach, _⟩ := insert_all_ok pairs [] hne hpw
      (fun p _ => cleanB_nil_trie p.1)
    refine ⟨t, hins, ?_⟩
    intro ws
    induction ws with
    | nil => intro _; rfl
    | cons w ws' ih =>
      intro hws
      have h2 := cmap_decode_reaches t w.2 w.1 t ((ws'.map Prod.fst).flatten)
        (hreach w (hws w (List.mem_cons_self w ws')))
      have h3 := ih (fun x hx => hws x (List.mem_cons_of_mem w hx))
      show cmap_decode_aux t t (((w :: ws').map Prod.fst).flatten) = _
      have h1 : ((w :: ws').map Prod.fst).flatten = w.1 ++ (ws'.map Prod.fst).flatten := by
        simp
      rw [h1, h2]
      simp only [List.map_cons]
      exact congrArg (List.cons w.2) h3
  · rfl

/-- C6, witness: two non-conflicting codes decoded in swapped order. -/
theorem c6_witness :
    (insert_all [] [([0], 5), ([1, 2], 6)]).map
      (fun t => cmap_decode t [1, 2, 0]) = .ok [6, 5] := by
  obtain ⟨t, hins, hdec⟩ := c6_spec.1 [([0], 5), ([1, 2], 6)] (by decide) (by decide)
  rw [hins]
  have h' : cmap_decode t [1, 2, 0] = [6, 5] := by
    simpa using hdec [([1, 2], 6), ([0], 5)] (by decide)
  show Except.ok (cmap_decode t [1, 2, 0]) = Except.ok [6, 5]
  rw [h']

/-! ### Claim C8: lenient decoding never fails -/

/-- C8: `cmap_decode` is a total function (the embedding has no failure
path, mirroring the source's exhaustive `if c in d / else`): a run of bytes
with no outgoing edge from the root is silently dropped, leaving the decode
of the rest unchanged, and a represented code emits its CID and resets the
walk to the root. -/
theorem c8_spec (t : Trie) (junk code c rest : List Nat) (k : Int)
    (hjunk : ∀ b ∈ junk, tfind t b = none) (hreach : reachesB t c k = true) :
    cmap_decode t (junk ++ code) = cmap_decode t code
    ∧ cmap_decode t (c ++ rest) = k :: cmap_decode t rest :=
  ⟨cmap_decode_drop t junk code hjunk, cmap_decode_reaches t k c t rest hreach⟩

/-- C8, witness: unmapped bytes 9 and 3 are dropped without error. -/
theorem c8_witness :
    cmap_decode [(1, TNode.branch [(2, TNode.leaf 7)])] ([9, 3] ++ [1, 2]) =
      cmap_decode [(1, TNode.branch [(2, TNode.leaf 7)])] [1, 2]
    ∧ cmap_decode [(1, TNode.branch [(2, TNode.leaf 7)])] ([1, 2] ++ []) =
      7 :: cmap_decode [(1, TNode.branch [(2, TNode.leaf 7)])] [] := by
  refine c8_spec _ [9, 3] [1, 2] [1, 2] [] 7 ?_ (by decide)
  intro b hb
  fin_cases hb <;> rfl

/-! ### Claim C9: prefix-conflicting insertion raises `TypeError` -/

/-- C9: if the trie already binds code `c` to a CID leaf, inserting any
strictly longer code extending `c` walks into the integer leaf and raises
`TypeError` — a crash, not an overwrite or a skip. -/
theorem c9_spec :
    ∀ (c : List Nat) (t : Trie) (k cid' : Int) (ext : List Nat),
      reachesB t c k = true → ext ≠ [] →
      add_code2cid t (c ++ ext) cid' = .error "TypeError" := by
  intro c
  induction c with
  | nil => intro t k cid' ext hreach _; simp [reachesB] at hreach
  | cons b bs ih =>
    intro t k cid' ext hreach hext
    cases bs with
    | nil =>
      cases htf : tfind t b with
      | none => simp [reachesB, htf] at hreach
      | some node =>
        cases node with
        | branch _ => simp [reachesB, htf] at hreach
        | leaf ck =>
          match ext with
          | [] => exact absurd rfl hext
          | x :: xs =>
            show add_code2cid t (b :: x :: xs) cid' = .error "TypeError"
            simp [add_code2cid, htf]
    | cons b2 bs2 =>
      cases htf : tfind t b with
      | none => simp [reachesB, htf] at hreach
      | some node =>
        cases node with
        | leaf _ => simp [reachesB, htf] at hreach
        | branch db =>
          have hreach' : reachesB db (b2 :: bs2) k = true := by
            simpa [reachesB, htf] using hreach
          have hin := ih db k cid' ext hreach' hext
          show add_code2cid t (b :: ((b2 :: bs2) ++ ext)) cid' = .error "TypeError"
          simp only [List.cons_append, add_code2cid, htf, List.append_eq]
          have hin' : add_code2cid db (b2 :: (bs2 ++ ext)) cid' = Except.error "TypeError" := hin
          rw [hin']
          rfl

/-- C9, witness: the trie holds `[1] -> 5`; inserting the longer code
`[1, 2]` raises `TypeError`. -/
theorem c9_witness :
    add_code2cid [(1, TNode.leaf 5)] [1, 2] 7 = .error "TypeError" :=
  c9_spec [1] [(1, TNode.leaf 5)] 5 7 [2] (by decide) (by decide)

/-! ### Claim C7: `use_cmap` replaces subtrees wholesale -/

theorem tfind_eq_none_iff (t : Trie) (k : Nat) :
    tfind t k = none ↔ k ∉ t.map Prod.fst := by
  induction t with
  | nil => simp [tfind]
  | cons kv r ih =>
    obtain ⟨k0, v0⟩ := kv
    by_cases hk : k0 = k
    · subst hk; simp [tfind]
    · simp only [tfind, if_neg hk, List.map_cons, List.mem_cons]
      rw [ih]
      constructor
      · intro h hh
        rcases hh with hh | hh
        · exact hk hh.symm
        · exact h hh
      · intro h hh
        exact h (Or.inr hh)

theorem use_cmap_not_mem (k : Nat) :
    ∀ (src : Trie) (dst : Trie), k ∉ src.map Prod.fst →
      tfind (use_cmap dst src) k = tfind dst k := by
  intro src
  induction src with
  | nil => intro dst _; rfl
  | cons kv rest ih =>
    intro dst hk
    obtain ⟨k0, v0⟩ := kv
    have hk0 : k ≠ k0 := by
      intro hh; exact hk (by simp [hh])
    have hrest : k ∉ rest.map Prod.fst := by
      intro hh; exact hk (by simp [hh])
    show tfind (use_cmap (tupd dst k0 (deepcopy_node v0)) rest) k = tfind dst k
    rw [ih _ hrest, tfind_tupd_ne _ _ _ _ hk0]

theorem use_cmap_mem (k : Nat) :
    ∀ (src : Trie) (dst : Trie) (v : TNode), (src.map Prod.fst).Nodup →
      tfind src k = some v →
      tfind (use_cmap dst src) k = some (deepcopy_node v) := by
  intro src
  induction src with
  | nil => intro dst v _ hv; simp [tfind] at hv
  | cons kv rest ih =>
    intro dst v hnd hv
    obtain ⟨k0, v0⟩ := kv
    have hnd2 : (k0 :: rest.map Prod.fst).Nodup := by simpa using hnd
    by_cases hk : k0 = k
    · subst hk
      have hv0 : v0 = v := by simpa [tfind] using hv
      show tfind (use_cmap (tupd dst k0 (deepcopy_node v0)) rest) k0 = _
      rw [use_cmap_not_mem k0 rest _ (List.nodup_cons.mp hnd2).1, tfind_tupd_self, hv0]
    · have hv' : tfind rest k = some v := by simpa [tfind, hk] using hv
      have hnd' : (rest.map Prod.fst).Nodup := (List.nodup_cons.mp hnd2).2
      exact ih (tupd dst k0 (deepcopy_node v0)) v hnd' hv'

/-- C7: at every key present in the source trie, `use_cmap` installs a fresh
copy of the source subtree, discarding the destination's entire subtree at
that key (the result is independent of the destination, which is
universally quantified); at keys absent from the source the destination
binding is untouched. -/
theorem c7_spec (dst src : Trie) (hnd : (src.map Prod.fst).Nodup) (k : Nat) :
    (∀ v, tfind src k = some v → tfind (use_cmap dst src) k = some (deepcopy_node v))
    ∧ (tfind src k = none → tfind (use_cmap dst src) k = tfind dst k) :=
  ⟨fun v hv => use_cmap_mem k src dst v hnd hv,
   fun hnone => use_cmap_not_mem k src dst ((tfind_eq_none_iff src k).mp hnone)⟩

/-- C7, witness: the source key 1 replaces the destination's branch subtree
wholesale; the destination-only key 3 is untouched. -/
theorem c7_witness :
    tfind (use_cmap [(1, TNode.branch [(5, TNode.leaf 50)]), (3, TNode.leaf 30)]
      [(1, TNode.leaf 99)]) 1 = some (deepcopy_node (TNode.leaf 99))
    ∧ tfind (use_cmap [(1, TNode.branch [(5, TNode.leaf 50)]), (3, TNode.leaf 30)]
      [(1, TNode.leaf 99)]) 3 =
      tfind [(1, TNode.branch [(5, TNode.leaf 50)]), (3, TNode.leaf 30)] 3 :=
  ⟨(c7_spec _ _ (by simp) 1).1 (TNode.leaf 99) rfl,
   (c7_spec _ _ (by simp) 3).2 rfl⟩

/-! ### Claim C4: extrapolation and memoization in `get_unichr` -/

theorem nearest_select_qualifies (cid : Int) (prev : Option BfItem) (item it : BfItem)
    (h : nearest_select cid prev item = some it) : is_same_charset cid it = true := by
  cases prev with
  | none =>
    simp only [nearest_select] at h
    cases hc : is_same_charset cid item with
    | true =>
      rw [hc] at h
      simp only [if_true] at h
      rw [← Option.some.inj h]
      exact hc
    | false =>
      rw [hc] at h
      simp at h
  | some p =>
    simp only [nearest_select] at h
    cases hp : is_same_charset cid p with
    | false =>
      cases hc : is_same_charset cid item with
      | false =>
        rw [hp, hc] at h
        simp at h
      | true =>
        rw [hp, hc] at h
        simp only [Bool.false_and, Bool.false_eq_true, if_false] at h
        rw [← Option.some.inj h]
        exact hc
    | true =>
      cases hc : is_same_charset cid item with
      | false =>
        rw [hp, hc] at h
        simp only [Bool.true_and, Bool.false_eq_true, if_false, if_true] at h
        rw [← Option.some.inj h]
        exact hp
      | true =>
        rw [hp, hc] at h
        simp only [Bool.and_self, if_true] at h
        by_cases hd : cid - p.e < item.s - cid
        · rw [if_pos hd] at h
          rw [← Option.some.inj h]
          exact hp
        · rw [if_neg hd] at h
          rw [← Option.some.inj h]
          exact hc

theorem get_nearest_loop_qualifies (cid : Int) :
    ∀ (l : List BfItem) (prev : Option BfItem) (it : BfItem),
      get_nearest_loop cid prev l = some (some it) → is_same_charset cid it = true := by
  intro l
  induction l with
  | nil => intro prev it h; exact Option.noConfusion h
  | cons item rest ih =>
    intro prev it h
    by_cases hlt : cid < item.s
    · simp only [get_nearest_loop, if_pos hlt] at h
      exact nearest_select_qualifies cid prev item it (Option.some.inj h)
    · simp only [get_nearest_loop, if_neg hlt] at h
      exact ih (some item) it h

/-- Every entry returned by `get_nearest_bfrange` passes the same-charset
test. -/
theorem get_nearest_bfrange_qualifies (m : FileUnicodeMap) (cid : Int) (it : BfItem)
    (h : get_nearest_bfrange m cid = some it) : is_same_charset cid it = true := by
  unfold get_nearest_bfrange at h
  split at h
  next r hr =>
    subst h
    exact get_nearest_loop_qualifies cid m.bfranges none it hr
  next hr =>
    split at h
    next last hlast =>
      split at h
      next hq =>
        rw [← Option.some.inj h]
        exact hq
      next hq => exact Option.noConfusion h
    next hlast => exact Option.noConfusion h

/-- A qualifying entry yields a scalar `cid + off` inside `[0, 0x10FFFF]`. -/
theorem is_same_charset_bound (cid : Int) (it : BfItem)
    (h : is_same_charset cid it = true) : 0 ≤ cid + it.off ∧ cid + it.off ≤ 0x10FFFF := by
  unfold is_same_charset at h
  cases hb : get_unicode_charset_entry (cid + it.off) with
  | none => rw [hb] at h; exact Bool.noConfusion h
  | some charset =>
    have := get_unicode_charset_entry_bound hb
    omega

theorem get_nearest_loop_split (cid : Int) :
    ∀ (pre : List BfItem) (prev : Option BfItem) (p q : BfItem) (post : List BfItem),
      (∀ x ∈ pre, x.s ≤ cid) → p.s ≤ cid → cid < q.s →
      get_nearest_loop cid prev (pre ++ p :: q :: post) =
        some (nearest_select cid (some p) q) := by
  intro pre
  induction pre with
  | nil =>
    intro prev p q post _ hp hq
    have hnp : ¬ cid < p.s := not_lt.mpr hp
    simp only [List.nil_append, get_nearest_loop, if_neg hnp, if_pos hq]
  | cons x pre' ih =>
    intro prev p q post hpre hp hq
    have hnx : ¬ cid < x.s := not_lt.mpr (hpre x (List.mem_cons_self x pre'))
    simp only [List.cons_append, get_nearest_loop, if_neg hnx]
    exact ih (some x) p q post (fun y hy => hpre y (List.mem_cons_of_mem x hy)) hp hq

/-- C4: on a CID absent from the direct table, (i) a neighboring entry found
by `get_nearest_bfrange` yields the synthesized scalar `cid + off`, memoized
into the direct table; (ii) with no qualifying neighbor the lookup fails
(`KeyError`, the surfacing of `UndefinedCID`); (iii) the neighbor selection
at the first entry past the queried CID takes the numerically closer
qualifying neighbor (predecessor's end vs successor's start) when both
qualify, the single qualifying one otherwise, and fails when neither
qualifies. -/
theorem c4_spec (m : FileUnicodeMap) (cid : Int) (hmiss : afind m.cid2unichr cid = none) :
    (∀ it, get_nearest_bfrange m cid = some it →
      get_unichr m cid = .ok ([cid + it.off],
        { m with cid2unichr := aupd m.cid2unichr cid [cid + it.off] }))
    ∧ (get_nearest_bfrange m cid = none → get_unichr m cid = .error "KeyError")
    ∧ (∀ (pre post : List BfItem) (p q : BfItem),
        m.bfranges = pre ++ p :: q :: post →
        (∀ x ∈ pre, x.s ≤ cid) → p.s ≤ cid → cid < q.s →
        get_nearest_bfrange m cid =
          (if is_same_charset cid p = true ∧ is_same_charset cid q = true then
            (if cid - p.e < q.s - cid then some p else some q)
          else if is_same_charset cid p = true then some p
          else if is_same_charset cid q = true then some q
          else none)) := by
  refine ⟨?_, ?_, ?_⟩
  · intro it hit
    have hqual := get_nearest_bfrange_qualifies m cid it hit
    have hb := is_same_charset_bound cid it hqual
    unfold get_unichr
    rw [hmiss, hit]
    simp only [Option.isNone_none, if_true, add_cid2unichr, if_pos hb, Except.map]
    show (Except.ok _ >>= _) = _
    simp only [bind, Except.bind, afind_aupd_self]
  · intro hnone
    unfold get_unichr
    rw [hmiss, hnone]
    simp only [Option.isNone_none, if_true]
    show (Except.ok m >>= _) = _
    simp only [bind, Except.bind, hmiss]
  · intro pre post p q hsplit hpre hp hq
    unfold get_nearest_bfrange
    rw [hsplit, get_nearest_loop_split cid pre none p q post hpre hp hq]
    show nearest_select cid (some p) q = _
    simp only [nearest_select]
    by_cases h1 : is_same_charset cid p = true <;>
      by_cases h2 : is_same_charset cid q = true <;>
        simp [h1, h2, Bool.not_eq_true]

/-- C4, witness: CID 6 sits between entries `(0,4,0x41)` and `(10,14,0x50)`,
both qualifying; the predecessor is closer (distance 2 vs 4), so `0x47 =
6 + 0x41` is synthesized and memoized; with a non-qualifying lone entry the
lookup raises `KeyError`. -/
theorem c4_witness :
    get_unichr ⟨[], [⟨0, 4, 0x41, 0x41⟩, ⟨10, 14, 0x50, 0x46⟩]⟩ 6 =
      .ok ([0x47], ⟨[(6, [0x47])], [⟨0, 4, 0x41, 0x41⟩, ⟨10, 14, 0x50, 0x46⟩]⟩)
    ∧ get_unichr ⟨[], [⟨10, 14, 0x4E00, 0x4DF6⟩]⟩ 6 = .error "KeyError"
    ∧ get_nearest_bfrange ⟨[], [⟨0, 4, 0x41, 0x41⟩, ⟨10, 14, 0x50, 0x46⟩]⟩ 6 =
        some ⟨0, 4, 0x41, 0x41⟩ := by
  refine ⟨?_, ?_, ?_⟩
  · exact (c4_spec ⟨[], [⟨0, 4, 0x41, 0x41⟩, ⟨10, 14, 0x50, 0x46⟩]⟩ 6 rfl).1
      ⟨0, 4, 0x41, 0x41⟩ rfl
  · exact (c4_spec ⟨[], [⟨10, 14, 0x4E00, 0x4DF6⟩]⟩ 6 rfl).2.1 rfl
  · exact ((c4_spec ⟨[], [⟨0, 4, 0x41, 0x41⟩, ⟨10, 14, 0x50, 0x46⟩]⟩ 6 rfl).2.2
      [] [] ⟨0, 4, 0x41, 0x41⟩ ⟨10, 14, 0x50, 0x46⟩ rfl (by simp) (by decide)
      (by decide)).trans (by decide)

/-! ### Claim C5: merge pass and gap back-fill -/

theorem backfill_aux (off : Int) :
    ∀ (n : Nat) (a : Int) (tbl : UTable),
      (∀ j : Nat, j < n → 0 ≤ a + j + off ∧ a + j + off ≤ 0x10FFFF) →
      ∃ tbl', ((List.range n).map Int.ofNat).foldlM
          (fun t j => add_cid2unichr t (a + j) (.pint (a + j + off))) tbl = .ok tbl'
        ∧ (∀ c : Int, a ≤ c → c < a + n → afind tbl' c = some [c + off])
        ∧ (∀ c : Int, ¬(a ≤ c ∧ c < a + n) → afind tbl' c = afind tbl c) := by
  intro n
  induction n with
  | zero =>
    intro a tbl _
    refine ⟨tbl, rfl, fun c hc1 hc2 => absurd hc2 (by omega), fun c _ => rfl⟩
  | succ n ih =>
    intro a tbl hv
    obtain ⟨tbl₁, hfold, hin, hout⟩ := ih a tbl (fun j hj => hv j (Nat.lt_succ_of_lt hj))
    have hval := hv n (Nat.lt_succ_self n)
    refine ⟨aupd tbl₁ (a + n) [a + n + off], ?_, ?_, ?_⟩
    · rw [List.range_succ, List.map_append, List.foldlM_append, hfold]
      show (Except.ok tbl₁ >>= _) = _
      simp only [bind, Except.bind, List.foldlM, List.map_cons, List.map_nil,
        add_cid2unichr, Int.ofNat_eq_coe, if_pos hval]
      rfl
    · intro c hc1 hc2
      by_cases hc : c = a + n
      · subst hc; rw [afind_aupd_self]
      · rw [afind_aupd_ne _ _ _ _ hc]
        exact hin c hc1 (by omega)
    · intro c hc
      have hcne : c ≠ a + n := by omega
      rw [afind_aupd_ne _ _ _ _ hcne]
      exact hout c (by omega)

theorem bf_backfill_ok (tbl : UTable) (a b off : Int)
    (hv : ∀ c : Int, a ≤ c → c < b → 0 ≤ c + off ∧ c + off ≤ 0x10FFFF) :
    ∃ tbl', bf_backfill tbl a b off = .ok tbl'
      ∧ (∀ c, a ≤ c → c < b → afind tbl' c = some [c + off])
      ∧ (∀ c, ¬(a ≤ c ∧ c < b) → afind tbl' c = afind tbl c) := by
  obtain ⟨tbl', h1, h2, h3⟩ := backfill_aux off (b - a).toNat a tbl
    (fun j hj => hv (a + j) (by omega) (by omega))
  refine ⟨tbl', h1, ?_, ?_⟩
  · intro c hc1 hc2
    exact h2 c hc1 (by omega)
  · intro c hc
    exact h3 c (by omega)

/-- C5, counterexample: both entries pass the admission check, share offset
`0x4E00`, and are consecutive in the sorted order, but the merged entry
`(0, 6, 0x4E00)` ends at the *later* entry's end 6 and does not span the
earlier entry's range `[0, 100]` (no CID is strictly between 100 and 5, so
nothing is back-filled either). -/
theorem c5_counterexample :
    verify_char_set 0 100 0x4E00 = some 100
    ∧ verify_char_set 5 6 0x4E05 = some 6
    ∧ fill_cmap_by_ranges [] [⟨0, 100, 0x4E00, 0x4E00⟩, ⟨5, 6, 0x4E05, 0x4E00⟩] true =
        .ok ([⟨0, 6, 0x4E00, 0x4E00⟩], [])
    ∧ ¬ (100 ≤ (6 : Int)) :=
  ⟨by decide, by decide, rfl, by decide⟩

/-- C5, amended: two consecutive same-offset entries collapse into the
single entry running from the earlier entry's start to the *later* entry's
end (which spans both exactly when the later entry does not end before the
earlier one), and every CID strictly between the earlier entry's end and the
later entry's start is back-filled into the direct table as `cid + offset`;
other CIDs are untouched. -/
theorem c5_amended (s1 e1 b1 s2 e2 b2 : Int) (tbl : UTable)
    (hoff : b1 - s1 = b2 - s2) (hs : s1 ≤ s2) (hse : s1 ≤ e1)
    (hb1 : 0 ≤ b1) (hb2 : b2 ≤ 0x10FFFF) :
    ∃ tbl', bf_backfill tbl (e1 + 1) s2 (b2 - s2) = .ok tbl'
      ∧ fill_cmap_by_ranges tbl [⟨s1, e1, b1, b1 - s1⟩, ⟨s2, e2, b2, b2 - s2⟩] true =
          .ok ([⟨s1, e2, b1, b2 - s2⟩], tbl')
      ∧ (∀ c, e1 < c → c < s2 → afind tbl' c = some [c + (b2 - s2)])
      ∧ (∀ c, c ≤ e1 ∨ s2 ≤ c → afind tbl' c = afind tbl c) := by
  obtain ⟨tbl', h1, h2, h3⟩ := bf_backfill_ok tbl (e1 + 1) s2 (b2 - s2)
    (fun c hc1 hc2 => by constructor <;> omega)
  refine ⟨tbl', h1, ?_, fun c hc1 hc2 => h2 c (by omega) hc2, fun c hc => h3 c (by omega)⟩
  have hns : ¬ s2 < s1 := not_lt.mpr hs
  have hsort : py_sorted [(⟨s1, e1, b1, b1 - s1⟩ : BfItem), ⟨s2, e2, b2, b2 - s2⟩] =
      [⟨s1, e1, b1, b1 - s1⟩, ⟨s2, e2, b2, b2 - s2⟩] := by
    simp [py_sorted, py_insert, hns]
  unfold fill_cmap_by_ranges
  rw [hsort]
  simp only [fill_loop]
  rw [if_pos (show b2 - s2 = b1 - s1 from hoff.symm)]
  simp only [if_true]
  rw [h1]
  show (Except.ok tbl' >>= _) = _
  simp only [bind, Except.bind]
  rfl

/-- C5, witness: the spec's own instance — entries `(0,4,100,100)` and
`(10,14,110,100)` merge into `(0,14,100,100)` and CIDs 5 through 9 are
back-filled as `cid + 100`. -/
theorem c5_witness :
    fill_cmap_by_ranges [] [⟨0, 4, 100, 100⟩, ⟨10, 14, 110, 100⟩] true =
      .ok ([⟨0, 14, 100, 100⟩],
           [(5, [105]), (6, [106]), (7, [107]), (8, [108]), (9, [109])])
    ∧ afind [(5, [105]), (6, [106]), (7, [107]), (8, [108]), (9, [109])] 7 = some [107] := by
  obtain ⟨tbl', h1, h2, h3, h4⟩ :=
    c5_amended 0 4 100 10 14 110 [] (by decide) (by decide) (by decide) (by decide) (by decide)
  have hbf : bf_backfill [] (4 + 1) 10 (110 - 10) =
      .ok [(5, [(105 : Int)]), (6, [106]), (7, [107]), (8, [108]), (9, [109])] := rfl
  rw [hbf] at h1
  have htbl : tbl' = [(5, [(105 : Int)]), (6, [106]), (7, [107]), (8, [108]), (9, [109])] :=
    (Except.ok.inj h1).symm
  subst htbl
  exact ⟨h2, h3 7 (by decide) (by decide)⟩

/-! ### Claim C2: the stored bfrange extrapolation index -/

theorem mem_py_insert (x y : BfItem) : ∀ l, y ∈ py_insert x l ↔ y = x ∨ y ∈ l := by
  intro l
  induction l with
  | nil => simp [py_insert]
  | cons z zs ih =>
    by_cases h : x.s < z.s
    · simp [py_insert, h, List.mem_cons]
    · simp [py_insert, h, List.mem_cons, ih]
      tauto

theorem py_insert_sorted (x : BfItem) :
    ∀ l, List.Pairwise (fun a b : BfItem => a.s ≤ b.s) l →
      List.Pairwise (fun a b : BfItem => a.s ≤ b.s) (py_insert x l) := by
  intro l
  induction l with
  | nil => intro _; simp [py_insert]
  | cons z zs ih =>
    intro hp
    obtain ⟨hz, hzs⟩ := List.pairwise_cons.mp hp
    by_cases h : x.s < z.s
    · rw [py_insert, if_pos h]
      refine List.pairwise_cons.mpr ⟨?_, hp⟩
      intro y hy
      rcases List.mem_cons.mp hy with rfl | hy
      · exact le_of_lt h
      · exact le_trans (le_of_lt h) (hz y hy)
    · rw [py_insert, if_neg h]
      refine List.pairwise_cons.mpr ⟨?_, ih hzs⟩
      intro y hy
      rcases (mem_py_insert x y zs).mp hy with rfl | hy
      · exact not_lt.mp h
      · exact hz y hy

/-- Python's stable sort by `cid_start` yields a list pairwise ordered by
`cid_start`. -/
theorem py_sorted_sorted (l : List BfItem) :
    List.Pairwise (fun a b : BfItem => a.s ≤ b.s) (py_sorted l) := by
  suffices h : ∀ (l acc : List BfItem),
      List.Pairwise (fun a b : BfItem => a.s ≤ b.s) acc →
      List.Pairwise (fun a b : BfItem => a.s ≤ b.s)
        (l.foldl (fun acc x => py_insert x acc) acc) by
    exact h l [] (by simp)
  intro l
  induction l with
  | nil => intro acc h; exact h
  | cons x xs ih =>
    intro acc h
    exact ih (py_insert x acc) (py_insert_sorted x acc h)

theorem is_subset_of_ranges_none (r : BfItem) :
    ∀ (l : List BfItem), is_subset_of_ranges l r = none →
      ∀ item ∈ l, item ≠ r →
        ¬ (item.base ≤ r.base ∧ r.base + r.e - r.s ≤ item.base + item.e - item.s) := by
  intro l hnone item hmem hne hcont
  have := List.find?_eq_none.mp hnone item hmem
  simp only [decide_eq_true_eq] at this
  exact this ⟨hne, hcont⟩

/-- C2, counterexample: six accepted base-form bfrange groups for which the
fixup pass stores an index in which the entry `(200, 200, 5005)` has its
unicode interval `[5005, 5005]` fully contained in the interval
`[5000, 5011]` of the re-merged entry `(100, 111, 5000)`: the subset
elimination runs before the second merge pass, so the re-merge reintroduces
a containment into the stored index. -/
theorem c2_counterexample :
    (run_bfrange_stream
      [.pstr [0], .pstr [1], .pstr [100],
       .pstr [2], .pstr [3], .pstr [102],
       .pstr [105], .pstr [105], .pstr [101],
       .pstr [100], .pstr [101], .pstr [0x13, 0x88],
       .pstr [110], .pstr [111], .pstr [0x13, 0x92],
       .pstr [200], .pstr [200], .pstr [0x13, 0x8D]]).map
      (fun st => st.cmap.bfranges)
      = .ok [⟨0, 3, 100, 100⟩, ⟨100, 111, 5000, 4900⟩, ⟨200, 200, 5005, 4805⟩]
    ∧ (⟨200, 200, 5005, 4805⟩ : BfItem) ≠ ⟨100, 111, 5000, 4900⟩
    ∧ (5000 : Int) ≤ 5005 ∧ (5005 : Int) + 200 - 200 ≤ 5000 + 111 - 100 :=
  ⟨rfl, by decide, by decide, by decide⟩

/-- C2, amended: whenever the fixup pass succeeds, it either leaves the
stored index unchanged (the empty-accepted-list and the no-merge early
returns) or stores a list sorted by `cid_start`; and the subset-elimination
stage itself is containment-free — no surviving entry's unicode interval is
contained in that of a distinct surviving entry — but the stored index is
the *re-merge* of the survivors, which can contain containments (see the
counterexample). -/
theorem c2_amended :
    (∀ (st st' : ParserState), fixup_cmaps st = .ok st' →
      st'.cmap.bfranges = st.cmap.bfranges ∨
        List.Pairwise (fun a b : BfItem => a.s ≤ b.s) st'.cmap.bfranges)
    ∧ (∀ (merged : List BfItem) (a b : BfItem),
        a ∈ merged.filter (fun it => (is_subset_of_ranges merged it).isNone) →
        b ∈ merged.filter (fun it => (is_subset_of_ranges merged it).isNone) →
        a ≠ b →
        ¬ (b.base ≤ a.base ∧ a.base + a.e - a.s ≤ b.base + b.e - b.s)) := by
  constructor
  · intro st st' hok
    by_cases hemp : st.cmap_bfrange_items = []
    · left
      unfold fixup_cmaps at hok
      rw [if_pos hemp] at hok
      cases hok
      rfl
    · unfold fixup_cmaps at hok
      rw [if_neg hemp] at hok
      cases hfill : fill_cmap_by_ranges st.cmap.cid2unichr st.cmap_bfrange_items true with
      | error e =>
        rw [hfill] at hok
        simp [bind, Except.bind] at hok
      | ok pr =>
        obtain ⟨merged, tbl₁⟩ := pr
        rw [hfill] at hok
        simp only [bind, Except.bind] at hok
        by_cases hlen : merged.length = st.cmap_bfrange_items.length
        · rw [if_pos hlen] at hok
          left
          rw [← Except.ok.inj hok]
        · rw [if_neg hlen] at hok
          by_cases hlen2 : (List.filter (fun item =>
              (is_subset_of_ranges merged item).isNone) merged).length ≠ merged.length
          · rw [if_pos hlen2] at hok
            cases hfill2 : fill_cmap_by_ranges tbl₁ (List.filter (fun item =>
                (is_subset_of_ranges merged item).isNone) merged) true with
            | error e => rw [hfill2] at hok; exact Except.noConfusion hok
            | ok pr2 =>
              obtain ⟨final, tbl₂⟩ := pr2
              rw [hfill2] at hok
              right
              rw [← Except.ok.inj hok]
              exact py_sorted_sorted final
          · rw [if_neg hlen2] at hok
            right
            rw [← Except.ok.inj hok]
            exact py_sorted_sorted _
  · intro merged a b ha hb hne
    have hb' : b ∈ merged := (List.mem_filter.mp hb).1
    have ha' : (is_subset_of_ranges merged a).isNone = true := (List.mem_filter.mp ha).2
    have hnone : is_subset_of_ranges merged a = none := Option.isNone_iff_eq_none.mp ha'
    exact is_subset_of_ranges_none a merged hnone b hb' (Ne.symm hne)

/-- C2, witness: a two-entry accepted list whose first merge pass collapses
a pair — the fixup stores the sorted merged index; and a concrete
containment-free elimination pair. -/
theorem c2_witness :
    ((ParserState.mk ⟨[], [⟨0, 3, 100, 100⟩]⟩ [] []).cmap.bfranges =
        (ParserState.mk ⟨[], []⟩ [⟨0, 1, 100, 100⟩, ⟨2, 3, 102, 100⟩] []).cmap.bfranges
      ∨ List.Pairwise (fun a b : BfItem => a.s ≤ b.s)
          (ParserState.mk ⟨[], [⟨0, 3, 100, 100⟩]⟩ [] []).cmap.bfranges)
    ∧ ¬ ((5005 : Int) ≤ 100 ∧ (100 : Int) + 3 - 0 ≤ 5005 + 200 - 200) := by
  constructor
  · exact c2_amended.1 (ParserState.mk ⟨[], []⟩ [⟨0, 1, 100, 100⟩, ⟨2, 3, 102, 100⟩] [])
      (ParserState.mk ⟨[], [⟨0, 3, 100, 100⟩]⟩ [] []) rfl
  · exact c2_amended.2 [⟨0, 3, 100, 100⟩, ⟨200, 200, 5005, 4805⟩]
      ⟨0, 3, 100, 100⟩ ⟨200, 200, 5005, 4805⟩ (by decide) (by decide) (by decide)
